import Mathlib

/-! Verification of the adaptive histogram bin-count estimator of `app.py`
(the function `calcular_nbins` and its call site `nbins`). The Python code
is embedded shallowly: the cleaned pandas series of salaries becomes a
`List ℝ`, NumPy float arithmetic becomes exact real arithmetic, and the
integer bin counts live in `ℤ`. -/

namespace App

/-- Integer index of the NumPy percentile position `q / 100 * (n - 1)`
(the default linear interpolation of `np.percentile`), computed in `ℚ`. -/
def posIdx (q : ℚ) (n : ℕ) : ℕ := (⌊q / 100 * ((n : ℚ) - 1)⌋).toNat

/-- Fractional part of the NumPy percentile position `q / 100 * (n - 1)`. -/
def posFrac (q : ℚ) (n : ℕ) : ℚ := q / 100 * ((n : ℚ) - 1) - posIdx q n

/-- NumPy `np.percentile(series, q)` with the default linear interpolation:
sort the data ascending, take the position `pos = q / 100 * (n - 1)`, and
interpolate linearly between the entries at index `⌊pos⌋` and `⌊pos⌋ + 1`
(the second entry is only weighted by the fractional part of `pos`, which is
zero whenever `pos` is the last valid index, so the out-of-range default is
never used on the paths the code executes). -/
noncomputable def percentile (series : List ℝ) (q : ℚ) : ℝ :=
  let s := List.insertionSort (· ≤ ·) series
  let i := posIdx q series.length
  s.getD i 0 + (posFrac q series.length : ℝ) * (s.getD (i + 1) (s.getD i 0) - s.getD i 0)

/-- pandas `series.max()`: greatest element of the series (defaulting to `0`
on the empty series, which the embedded code never queries: the `n_local <= 1`
guard returns first). -/
noncomputable def listMax : List ℝ → ℝ
  | [] => 0
  | x :: xs => xs.foldl max x

/-- pandas `series.min()`: least element of the series (defaulting to `0`
on the empty series, which the embedded code never queries). -/
noncomputable def listMin : List ℝ → ℝ
  | [] => 0
  | x :: xs => xs.foldl min x

/-- Python builtin `round` applied to a float: nearest integer, with ties at
an exact half going to the even integer (`round(2.5) == 2`, `round(3.5) == 4`). -/
noncomputable def pyRound (x : ℝ) : ℤ :=
  if x - ⌊x⌋ = 1 / 2 then (if Even ⌊x⌋ then ⌊x⌋ else ⌊x⌋ + 1) else round x

/-- NumPy `np.clip(x, 5, 100)` on integral values:
`np.minimum(100, np.maximum(x, 5))`. -/
def clip (x : ℤ) : ℤ := min 100 (max x 5)

/-- Local `q1` of `calcular_nbins`: `np.percentile(series, 25)`. -/
noncomputable def q1 (series : List ℝ) : ℝ := percentile series 25

/-- Local `q3` of `calcular_nbins`: `np.percentile(series, 75)`. -/
noncomputable def q3 (series : List ℝ) : ℝ := percentile series 75

/-- Local `iqr = q3 - q1` of `calcular_nbins`. -/
noncomputable def iqr (series : List ℝ) : ℝ := q3 series - q1 series

/-- Local `data_range = float(series.max() - series.min())` of `calcular_nbins`. -/
noncomputable def data_range (series : List ℝ) : ℝ := listMax series - listMin series

/-- Local Freedman-Diaconis bin width `h = 2 * iqr * (n_local ** (-1/3))`
of `calcular_nbins`. -/
noncomputable def h_fd (series : List ℝ) : ℝ :=
  2 * iqr series * (series.length : ℝ) ^ (-(1 / 3) : ℝ)

/-- Local `nbins_fd` of `calcular_nbins`: starts as `None`; when
`iqr > 0 and data_range > 0` and the width `h > 0`, it becomes
`int(np.clip(round(data_range / h), 5, 100))`. -/
noncomputable def nbins_fd (series : List ℝ) : Option ℤ :=
  if 0 < iqr series ∧ 0 < data_range series then
    if 0 < h_fd series then some (clip (pyRound (data_range series / h_fd series)))
    else none
  else none

/-- Local `nbins_sturges` of `calcular_nbins`:
`int(np.clip(np.ceil(np.log2(max(n_local, 2)) + 1), 5, 100))`. -/
noncomputable def nbins_sturges (n : ℕ) : ℤ :=
  clip ⌈Real.logb 2 ((max n 2 : ℕ) : ℝ) + 1⌉

/-- The estimator `calcular_nbins(series)` of `app.py`: default `10` for
samples of size at most 1; else the Freedman-Diaconis candidate when it is
set and truthy and at least 5 (`if nbins_fd and nbins_fd >= 5`), else the
Sturges fallback. -/
noncomputable def calcular_nbins (series : List ℝ) : ℤ :=
  if series.length ≤ 1 then 10
  else
    match nbins_fd series with
    | some v => if v ≠ 0 ∧ 5 ≤ v then v else nbins_sturges series.length
    | none => nbins_sturges series.length

/-- The call site of `calcular_nbins` in `app.py`:
`nbins = calcular_nbins(s) if n > 0 else 30`. -/
noncomputable def nbins (s : List ℝ) : ℤ :=
  if 0 < s.length then calcular_nbins s else 30

/-- `np.percentile` raises on an empty array; this variant returns `none`
there instead of a value. -/
noncomputable def percentileE (series : List ℝ) (q : ℚ) : Option ℝ :=
  if series = [] then none else some (percentile series q)

/-- Exception-aware rendering of `calcular_nbins`: every operation that can
raise (the percentile call on a possibly empty series) is threaded through
`Option`, so `none` models an uncaught exception. -/
noncomputable def calcular_nbinsE (series : List ℝ) : Option ℤ :=
  if series.length ≤ 1 then some 10
  else
    (percentileE series 25).bind fun p1 =>
      (percentileE series 75).bind fun p3 =>
        let iqrE := p3 - p1
        let fd : Option ℤ :=
          if 0 < iqrE ∧ 0 < data_range series then
            if 0 < h_fd series then
              some (clip (pyRound (data_range series / h_fd series)))
            else none
          else none
        match fd with
        | some v => if v ≠ 0 ∧ 5 ≤ v then some v else some (nbins_sturges series.length)
        | none => some (nbins_sturges series.length)

theorem clip_le_upper (x : ℤ) : clip x ≤ 100 := min_le_left _ _

theorem lower_le_clip (x : ℤ) : 5 ≤ clip x := le_min (by norm_num) (le_max_right _ _)

theorem nbins_sturges_bounds (n : ℕ) :
    5 ≤ nbins_sturges n ∧ nbins_sturges n ≤ 100 :=
  ⟨lower_le_clip _, clip_le_upper _⟩

theorem nbins_fd_eq_some {series : List ℝ} {v : ℤ} (h : nbins_fd series = some v) :
    v = clip (pyRound (data_range series / h_fd series)) := by
  unfold nbins_fd at h
  split at h
  · split at h
    · exact (Option.some.injEq _ _ ▸ h).symm
    · exact Option.noConfusion h
  · exact Option.noConfusion h

theorem calcular_nbins_of_small {series : List ℝ} (h : series.length ≤ 1) :
    calcular_nbins series = 10 := by
  unfold calcular_nbins
  exact if_pos h

theorem calcular_nbins_bounds (series : List ℝ) :
    5 ≤ calcular_nbins series ∧ calcular_nbins series ≤ 100 := by
  unfold calcular_nbins
  split
  · norm_num
  · cases hfd : nbins_fd series with
    | none => exact nbins_sturges_bounds _
    | some v =>
      simp only []
      split
      · rename_i hc
        refine ⟨hc.2, ?_⟩
        rw [nbins_fd_eq_some hfd]
        exact clip_le_upper _
      · exact nbins_sturges_bounds _

/-- C1: for every finite sample, the estimator returns an integer in the
range `[5, 100]`; the default `10` for samples of size 0 or 1 also lies in
that range. -/
theorem calcular_nbins_mem_range (series : List ℝ) :
    5 ≤ calcular_nbins series ∧ calcular_nbins series ≤ 100 :=
  calcular_nbins_bounds series

theorem nbins_fd_of_pos {series : List ℝ} (hiqr : 0 < iqr series)
    (hdr : 0 < data_range series) (hh : 0 < h_fd series) :
    nbins_fd series = some (clip (pyRound (data_range series / h_fd series))) := by
  unfold nbins_fd
  rw [if_pos ⟨hiqr, hdr⟩, if_pos hh]

theorem h_fd_pos {series : List ℝ} (hn : 1 ≤ series.length) (hiqr : 0 < iqr series) :
    0 < h_fd series := by
  have hn' : (0 : ℝ) < series.length := by exact_mod_cast hn
  exact mul_pos (mul_pos two_pos hiqr) (Real.rpow_pos_of_pos hn' _)

theorem calcular_nbins_eq_fd {series : List ℝ} (hn : 2 ≤ series.length)
    (hiqr : 0 < iqr series) (hdr : 0 < data_range series) :
    calcular_nbins series = clip (pyRound (data_range series / h_fd series)) := by
  have hh := h_fd_pos (by omega) hiqr
  unfold calcular_nbins
  rw [if_neg (by omega), nbins_fd_of_pos hiqr hdr hh]
  have h5 := lower_le_clip (pyRound (data_range series / h_fd series))
  exact if_pos ⟨by omega, h5⟩

theorem nbins_fd_eq_none {series : List ℝ}
    (h : iqr series = 0 ∨ data_range series = 0) : nbins_fd series = none := by
  unfold nbins_fd
  rw [if_neg]
  rintro ⟨h1, h2⟩
  rcases h with h | h
  · rw [h] at h1
    exact lt_irrefl _ h1
  · rw [h] at h2
    exact lt_irrefl _ h2

theorem calcular_nbins_eq_sturges {series : List ℝ} (hn : 2 ≤ series.length)
    (h : iqr series = 0 ∨ data_range series = 0) :
    calcular_nbins series = nbins_sturges series.length := by
  unfold calcular_nbins
  rw [if_neg (by omega), nbins_fd_eq_none h]

/-- C2: for every sample of size 0 or 1, the estimator returns exactly 10. -/
theorem calcular_nbins_small_default (series : List ℝ) (h : series.length ≤ 1) :
    calcular_nbins series = 10 :=
  calcular_nbins_of_small h

/-- C2 witness: the concrete samples `[]` and `[50000]` both yield 10. -/
theorem calcular_nbins_small_default_witness :
    calcular_nbins [] = 10 ∧ calcular_nbins [(50000 : ℝ)] = 10 :=
  ⟨calcular_nbins_small_default [] (by norm_num),
   calcular_nbins_small_default [(50000 : ℝ)] (by norm_num)⟩

/-- C3: for samples of size at least 2 with positive interquartile range and
positive range, the estimator returns the Freedman-Diaconis candidate
`round(data_range / h)` with `h = 2 * iqr * n ^ (-1/3)`, clipped to `[5, 100]`. -/
theorem calcular_nbins_fd_formula (series : List ℝ) (hn : 2 ≤ series.length)
    (hiqr : 0 < iqr series) (hdr : 0 < data_range series) :
    calcular_nbins series =
      clip (pyRound (data_range series /
        (2 * iqr series * (series.length : ℝ) ^ (-(1 / 3) : ℝ)))) :=
  calcular_nbins_eq_fd hn hiqr hdr

/-- C4: for samples of size at least 2 with zero interquartile range or zero
data range, the estimator falls back to the clipped Sturges value
`ceil(log2(max(n, 2)) + 1)`. -/
theorem calcular_nbins_sturges_fallback (series : List ℝ) (hn : 2 ≤ series.length)
    (h : iqr series = 0 ∨ data_range series = 0) :
    calcular_nbins series = nbins_sturges series.length :=
  calcular_nbins_eq_sturges hn h

/-- C9: for samples of size at least 2 with positive interquartile range and
positive data range, the Sturges fallback is unreachable: the bin width is
strictly positive, the clipped Freedman-Diaconis candidate is a truthy
integer at least 5, and the estimator returns that candidate. -/
theorem calcular_nbins_fd_reached (series : List ℝ) (hn : 2 ≤ series.length)
    (hiqr : 0 < iqr series) (hdr : 0 < data_range series) :
    0 < h_fd series ∧
      nbins_fd series = some (clip (pyRound (data_range series / h_fd series))) ∧
      clip (pyRound (data_range series / h_fd series)) ≠ 0 ∧
      5 ≤ clip (pyRound (data_range series / h_fd series)) ∧
      calcular_nbins series = clip (pyRound (data_range series / h_fd series)) := by
  have hh := h_fd_pos (by omega) hiqr
  have h5 := lower_le_clip (pyRound (data_range series / h_fd series))
  exact ⟨hh, nbins_fd_of_pos hiqr hdr hh, by omega, h5, calcular_nbins_eq_fd hn hiqr hdr⟩

/-- C7: the estimator is total; the exception-aware rendering (where the
percentile call on an empty series yields `none`) always returns `some` of
the pure value, so no input can reach a failing operation. -/
theorem calcular_nbinsE_total (series : List ℝ) :
    calcular_nbinsE series = some (calcular_nbins series) := by
  unfold calcular_nbinsE calcular_nbins
  split
  · rfl
  · rename_i hn
    have hne : series ≠ [] := by
      intro h
      rw [h] at hn
      exact hn (by norm_num)
    simp only [percentileE, if_neg hne, Option.some_bind]
    unfold nbins_fd iqr q3 q1
    cases ho : (if 0 < percentile series 75 - percentile series 25 ∧ 0 < data_range series then
        if 0 < h_fd series then some (clip (pyRound (data_range series / h_fd series)))
        else none
      else none) with
    | none => rfl
    | some v =>
      simp only []
      split <;> rfl

theorem percentile_perm {l l' : List ℝ} (h : l.Perm l') (q : ℚ) :
    percentile l q = percentile l' q := by
  have hs : List.insertionSort (· ≤ ·) l = List.insertionSort (· ≤ ·) l' :=
    List.eq_of_perm_of_sorted
      ((List.perm_insertionSort _ l).trans (h.trans (List.perm_insertionSort _ l').symm))
      (List.sorted_insertionSort _ l) (List.sorted_insertionSort _ l')
  simp only [percentile, hs, h.length_eq]

theorem le_foldl_max (xs : List ℝ) : ∀ x a : ℝ, a = x ∨ a ∈ xs → a ≤ List.foldl max x xs := by
  induction xs with
  | nil =>
    rintro x a (rfl | h)
    · exact le_refl a
    · cases h
  | cons y ys ih =>
    rintro x a (rfl | h)
    · exact le_trans (le_max_left a y) (ih (max a y) _ (Or.inl rfl))
    · rcases List.mem_cons.mp h with rfl | h'
      · exact le_trans (le_max_right x a) (ih (max x a) _ (Or.inl rfl))
      · exact ih (max x y) a (Or.inr h')

theorem foldl_max_eq_or_mem (xs : List ℝ) :
    ∀ x : ℝ, List.foldl max x xs = x ∨ List.foldl max x xs ∈ xs := by
  induction xs with
  | nil => exact fun x => Or.inl rfl
  | cons y ys ih =>
    intro x
    rcases ih (max x y) with h | h
    · rcases max_choice x y with h' | h'
      · exact Or.inl (by rw [List.foldl_cons, h, h'])
      · refine Or.inr (List.mem_cons.mpr (Or.inl ?_))
        rw [List.foldl_cons, h, h']
    · exact Or.inr (List.mem_cons.mpr (Or.inr (by rw [List.foldl_cons]; exact h)))

theorem foldl_min_le (xs : List ℝ) : ∀ x a : ℝ, a = x ∨ a ∈ xs → List.foldl min x xs ≤ a := by
  induction xs with
  | nil =>
    rintro x a (rfl | h)
    · exact le_refl a
    · cases h
  | cons y ys ih =>
    rintro x a (rfl | h)
    · exact le_trans (ih (min a y) _ (Or.inl rfl)) (min_le_left a y)
    · rcases List.mem_cons.mp h with rfl | h'
      · exact le_trans (ih (min x a) _ (Or.inl rfl)) (min_le_right x a)
      · exact ih (min x y) a (Or.inr h')

theorem foldl_min_eq_or_mem (xs : List ℝ) :
    ∀ x : ℝ, List.foldl min x xs = x ∨ List.foldl min x xs ∈ xs := by
  induction xs with
  | nil => exact fun x => Or.inl rfl
  | cons y ys ih =>
    intro x
    rcases ih (min x y) with h | h
    · rcases min_choice x y with h' | h'
      · exact Or.inl (by rw [List.foldl_cons, h, h'])
      · refine Or.inr (List.mem_cons.mpr (Or.inl ?_))
        rw [List.foldl_cons, h, h']
    · exact Or.inr (List.mem_cons.mpr (Or.inr (by rw [List.foldl_cons]; exact h)))

theorem listMax_mem {l : List ℝ} (h : l ≠ []) : listMax l ∈ l := by
  cases l with
  | nil => exact absurd rfl h
  | cons x xs =>
    rcases foldl_max_eq_or_mem xs x with h' | h'
    · exact List.mem_cons.mpr (Or.inl h')
    · exact List.mem_cons.mpr (Or.inr h')

theorem le_listMax {l : List ℝ} {a : ℝ} (h : a ∈ l) : a ≤ listMax l := by
  cases l with
  | nil => cases h
  | cons x xs =>
    rcases List.mem_cons.mp h with rfl | h'
    · exact le_foldl_max xs a a (Or.inl rfl)
    · exact le_foldl_max xs x a (Or.inr h')

theorem listMin_mem {l : List ℝ} (h : l ≠ []) : listMin l ∈ l := by
  cases l with
  | nil => exact absurd rfl h
  | cons x xs =>
    rcases foldl_min_eq_or_mem xs x with h' | h'
    · exact List.mem_cons.mpr (Or.inl h')
    · exact List.mem_cons.mpr (Or.inr h')

theorem listMin_le {l : List ℝ} {a : ℝ} (h : a ∈ l) : listMin l ≤ a := by
  cases l with
  | nil => cases h
  | cons x xs =>
    rcases List.mem_cons.mp h with rfl | h'
    · exact foldl_min_le xs a a (Or.inl rfl)
    · exact foldl_min_le xs x a (Or.inr h')

theorem listMax_perm {l l' : List ℝ} (h : l.Perm l') : listMax l = listMax l' := by
  cases l with
  | nil =>
    rw [List.Perm.eq_nil h.symm]
  | cons x xs =>
    have h1 : l' ≠ [] := by
      intro he
      rw [he] at h
      exact List.noConfusion (List.Perm.eq_nil h)
    exact le_antisymm
      (le_listMax (h.mem_iff.mp (listMax_mem (by exact List.cons_ne_nil x xs))))
      (le_listMax (h.mem_iff.mpr (listMax_mem h1)))

theorem listMin_perm {l l' : List ℝ} (h : l.Perm l') : listMin l = listMin l' := by
  cases l with
  | nil =>
    rw [List.Perm.eq_nil h.symm]
  | cons x xs =>
    have h1 : l' ≠ [] := by
      intro he
      rw [he] at h
      exact List.noConfusion (List.Perm.eq_nil h)
    exact le_antisymm
      (listMin_le (h.mem_iff.mpr (listMin_mem h1)))
      (listMin_le (h.mem_iff.mp (listMin_mem (by exact List.cons_ne_nil x xs))))

theorem iqr_perm {l l' : List ℝ} (h : l.Perm l') : iqr l = iqr l' := by
  unfold iqr q1 q3
  rw [percentile_perm h 25, percentile_perm h 75]

theorem data_range_perm {l l' : List ℝ} (h : l.Perm l') : data_range l = data_range l' := by
  unfold data_range
  rw [listMax_perm h, listMin_perm h]

theorem nbins_fd_perm {l l' : List ℝ} (h : l.Perm l') : nbins_fd l = nbins_fd l' := by
  unfold nbins_fd h_fd
  rw [iqr_perm h, data_range_perm h, h.length_eq]

theorem calcular_nbins_perm {l l' : List ℝ} (h : l.Perm l') :
    calcular_nbins l = calcular_nbins l' := by
  unfold calcular_nbins
  rw [nbins_fd_perm h, h.length_eq]

/-- C6: the estimator is deterministic (two calls on the same sample agree)
and order-independent (any permutation of the sample yields the same result). -/
theorem calcular_nbins_deterministic (l l' : List ℝ) (h : l.Perm l') :
    calcular_nbins l = calcular_nbins l ∧ calcular_nbins l = calcular_nbins l' :=
  ⟨rfl, calcular_nbins_perm h⟩

/-- C6 witness: the concrete permutation `[1, 2] ~ [2, 1]`. -/
theorem calcular_nbins_deterministic_witness :
    calcular_nbins [(1 : ℝ), 2] = calcular_nbins [(2 : ℝ), 1] :=
  (calcular_nbins_deterministic [(1 : ℝ), 2] [(2 : ℝ), 1] (List.Perm.swap 2 1 [])).2

theorem posIdx_eval {q : ℚ} {n k : ℕ} (h : ⌊q / 100 * ((n : ℚ) - 1)⌋ = (k : ℤ)) :
    posIdx q n = k := by
  unfold posIdx
  rw [h]
  simp

theorem posIdx_25_8 : posIdx 25 8 = 1 :=
  posIdx_eval (Int.floor_eq_iff.mpr (by norm_num))

theorem posFrac_25_8 : posFrac 25 8 = 3 / 4 := by
  unfold posFrac
  rw [posIdx_25_8]
  norm_num

theorem posIdx_75_8 : posIdx 75 8 = 5 :=
  posIdx_eval (Int.floor_eq_iff.mpr (by norm_num))

theorem posFrac_75_8 : posFrac 75 8 = 1 / 4 := by
  unfold posFrac
  rw [posIdx_75_8]
  norm_num

theorem posIdx_25_2 : posIdx 25 2 = 0 :=
  posIdx_eval (Int.floor_eq_iff.mpr (by norm_num))

theorem posFrac_25_2 : posFrac 25 2 = 1 / 4 := by
  unfold posFrac
  rw [posIdx_25_2]
  norm_num

theorem posIdx_75_2 : posIdx 75 2 = 0 :=
  posIdx_eval (Int.floor_eq_iff.mpr (by norm_num))

theorem posFrac_75_2 : posFrac 75 2 = 3 / 4 := by
  unfold posFrac
  rw [posIdx_75_2]
  norm_num

theorem posIdx_25_50 : posIdx 25 50 = 12 :=
  posIdx_eval (Int.floor_eq_iff.mpr (by norm_num))

theorem posIdx_75_50 : posIdx 75 50 = 36 :=
  posIdx_eval (Int.floor_eq_iff.mpr (by norm_num))

theorem posIdx_25_17 : posIdx 25 17 = 4 :=
  posIdx_eval (Int.floor_eq_iff.mpr (by norm_num))

theorem posFrac_25_17 : posFrac 25 17 = 0 := by
  unfold posFrac
  rw [posIdx_25_17]
  norm_num

theorem posIdx_75_17 : posIdx 75 17 = 12 :=
  posIdx_eval (Int.floor_eq_iff.mpr (by norm_num))

theorem posFrac_75_17 : posFrac 75 17 = 0 := by
  unfold posFrac
  rw [posIdx_75_17]
  norm_num

theorem pyRound_intCast (z : ℤ) : pyRound (z : ℝ) = z := by
  unfold pyRound
  rw [Int.floor_intCast, if_neg (by norm_num)]
  exact round_intCast z

theorem pyRound_four : pyRound (4 : ℝ) = 4 := by
  rw [show (4 : ℝ) = ((4 : ℤ) : ℝ) by norm_num, pyRound_intCast]

theorem rpow_neg_third_eight : (8 : ℝ) ^ (-(1 / 3) : ℝ) = 1 / 2 := by
  have h1 : ((2 : ℝ) ^ ((3 : ℕ) : ℝ)) = 8 := by
    rw [Real.rpow_natCast]
    norm_num
  have h2 : (8 : ℝ) ^ (-(1 / 3) : ℝ) = ((2 : ℝ) ^ ((3 : ℕ) : ℝ)) ^ (-(1 / 3) : ℝ) := by
    rw [h1]
  rw [h2, ← Real.rpow_mul (by norm_num : (0 : ℝ) ≤ 2)]
  rw [show ((3 : ℕ) : ℝ) * (-(1 / 3)) = ((-1 : ℤ) : ℝ) by norm_num]
  rw [Real.rpow_intCast]
  norm_num

theorem ceil_logb2_eval {x : ℝ} {k : ℤ} (hx : 0 < x)
    (hlow : (2 : ℝ) ^ (k - 2) < x) (hhigh : x ≤ (2 : ℝ) ^ (k - 1)) :
    ⌈Real.logb 2 x + 1⌉ = k := by
  have hlow' : (2 : ℝ) ^ (((k - 2 : ℤ)) : ℝ) < x := by
    rw [Real.rpow_intCast]
    exact hlow
  have hhigh' : x ≤ (2 : ℝ) ^ (((k - 1 : ℤ)) : ℝ) := by
    rw [Real.rpow_intCast]
    exact hhigh
  have h1 := (Real.lt_logb_iff_rpow_lt (by norm_num) hx).mpr hlow'
  have h2 := (Real.logb_le_iff_le_rpow (by norm_num) hx).mpr hhigh'
  rw [Int.ceil_eq_iff]
  push_cast at h1 h2 ⊢
  constructor
  · linarith
  · linarith

theorem nbins_sturges_2 : nbins_sturges 2 = 5 := by
  have hc : ⌈Real.logb 2 (2 : ℝ) + 1⌉ = (2 : ℤ) :=
    ceil_logb2_eval (by norm_num) (by norm_num) (by norm_num)
  unfold nbins_sturges
  rw [show (max 2 2 : ℕ) = 2 by omega, show ((2 : ℕ) : ℝ) = 2 by norm_num, hc]
  decide

theorem nbins_sturges_17 : nbins_sturges 17 = 6 := by
  have hc : ⌈Real.logb 2 (17 : ℝ) + 1⌉ = (6 : ℤ) :=
    ceil_logb2_eval (by norm_num) (by norm_num) (by norm_num)
  unfold nbins_sturges
  rw [show (max 17 2 : ℕ) = 17 by omega, show ((17 : ℕ) : ℝ) = 17 by norm_num, hc]
  decide

theorem nbins_sturges_50 : nbins_sturges 50 = 7 := by
  have hc : ⌈Real.logb 2 (50 : ℝ) + 1⌉ = (7 : ℤ) :=
    ceil_logb2_eval (by norm_num) (by norm_num) (by norm_num)
  unfold nbins_sturges
  rw [show (max 50 2 : ℕ) = 50 by omega, show ((50 : ℕ) : ℝ) = 50 by norm_num, hc]
  decide

/-- Concrete sample of size 8 used to exercise the Freedman-Diaconis branch. -/
noncomputable def sample8 : List ℝ := [0, 0, 0, 0, 0, 0, 4, 4]

theorem sample8_sorted : List.Sorted (· ≤ ·) sample8 := by
  norm_num [sample8, List.sorted_cons]

theorem sample8_length : sample8.length = 8 := by
  simp [sample8]

theorem q1_sample8 : q1 sample8 = 0 := by
  have hs : List.insertionSort (· ≤ ·) sample8 = sample8 := sample8_sorted.insertionSort_eq
  simp only [q1, percentile, hs, sample8_length, posIdx_25_8, posFrac_25_8]
  norm_num [sample8, List.getD]

theorem q3_sample8 : q3 sample8 = 1 := by
  have hs : List.insertionSort (· ≤ ·) sample8 = sample8 := sample8_sorted.insertionSort_eq
  simp only [q3, percentile, hs, sample8_length, posIdx_75_8, posFrac_75_8]
  norm_num [sample8, List.getD]

theorem iqr_sample8 : iqr sample8 = 1 := by
  unfold iqr
  rw [q1_sample8, q3_sample8]
  norm_num

theorem data_range_sample8 : data_range sample8 = 4 := by
  unfold data_range listMax listMin
  norm_num [sample8, max_def, min_def]

/-- C3 witness: on `[0, 0, 0, 0, 0, 0, 4, 4]` the interquartile range is 1,
the range is 4, the width is `2 * 1 * 8 ^ (-1/3) = 1`, so the candidate
`round(4 / 1) = 4` is clipped up to 5 and returned. -/
theorem calcular_nbins_fd_formula_witness :
    2 ≤ sample8.length ∧ 0 < iqr sample8 ∧ 0 < data_range sample8 ∧
      calcular_nbins sample8 = 5 := by
  have hl : 2 ≤ sample8.length := by rw [sample8_length]; norm_num
  have hiqr : 0 < iqr sample8 := by rw [iqr_sample8]; norm_num
  have hdr : 0 < data_range sample8 := by rw [data_range_sample8]; norm_num
  refine ⟨hl, hiqr, hdr, ?_⟩
  rw [calcular_nbins_fd_formula sample8 hl hiqr hdr]
  rw [data_range_sample8, iqr_sample8, sample8_length]
  rw [show ((8 : ℕ) : ℝ) = 8 by norm_num, rpow_neg_third_eight]
  rw [show (4 : ℝ) / (2 * 1 * (1 / 2)) = 4 by norm_num, pyRound_four]
  decide

/-- Concrete constant sample of size 2 used to exercise the Sturges fallback. -/
noncomputable def pair5 : List ℝ := [5, 5]

theorem pair5_length : pair5.length = 2 := by
  simp [pair5]

theorem q1_pair5 : q1 pair5 = 5 := by
  have hs : List.insertionSort (· ≤ ·) pair5 = pair5 :=
    List.Sorted.insertionSort_eq (by norm_num [pair5, List.sorted_cons])
  simp only [q1, percentile, hs, pair5_length, posIdx_25_2, posFrac_25_2]
  norm_num [pair5, List.getD]

theorem q3_pair5 : q3 pair5 = 5 := by
  have hs : List.insertionSort (· ≤ ·) pair5 = pair5 :=
    List.Sorted.insertionSort_eq (by norm_num [pair5, List.sorted_cons])
  simp only [q3, percentile, hs, pair5_length, posIdx_75_2, posFrac_75_2]
  norm_num [pair5, List.getD]

theorem iqr_pair5 : iqr pair5 = 0 := by
  unfold iqr
  rw [q1_pair5, q3_pair5]
  norm_num

/-- C4 witness: the constant sample `[5, 5]` has zero interquartile range and
takes the Sturges fallback, whose clipped value for `n = 2` is 5. -/
theorem calcular_nbins_sturges_fallback_witness :
    2 ≤ pair5.length ∧ iqr pair5 = 0 ∧
      calcular_nbins pair5 = nbins_sturges pair5.length ∧ calcular_nbins pair5 = 5 := by
  have hl : 2 ≤ pair5.length := by rw [pair5_length]
  have h := calcular_nbins_sturges_fallback pair5 hl (Or.inl iqr_pair5)
  refine ⟨hl, iqr_pair5, h, ?_⟩
  rw [h, pair5_length, nbins_sturges_2]

/-- Concrete sample of size 8 used to exercise the reachability of the
Freedman-Diaconis return. -/
noncomputable def sample8b : List ℝ := [0, 0, 0, 0, 0, 0, 8, 8]

theorem sample8b_length : sample8b.length = 8 := by
  simp [sample8b]

theorem q1_sample8b : q1 sample8b = 0 := by
  have hs : List.insertionSort (· ≤ ·) sample8b = sample8b :=
    List.Sorted.insertionSort_eq (by norm_num [sample8b, List.sorted_cons])
  simp only [q1, percentile, hs, sample8b_length, posIdx_25_8, posFrac_25_8]
  norm_num [sample8b, List.getD]

theorem q3_sample8b : q3 sample8b = 2 := by
  have hs : List.insertionSort (· ≤ ·) sample8b = sample8b :=
    List.Sorted.insertionSort_eq (by norm_num [sample8b, List.sorted_cons])
  simp only [q3, percentile, hs, sample8b_length, posIdx_75_8, posFrac_75_8]
  norm_num [sample8b, List.getD]

theorem iqr_sample8b : iqr sample8b = 2 := by
  unfold iqr
  rw [q1_sample8b, q3_sample8b]
  norm_num

theorem data_range_sample8b : data_range sample8b = 8 := by
  unfold data_range listMax listMin
  norm_num [sample8b, max_def, min_def]

/-- C9 witness: on `[0, 0, 0, 0, 0, 0, 8, 8]` the width is `2 * 2 * (1/2) = 2 > 0`
and the estimator returns the Freedman-Diaconis value `clip(round(8 / 2)) = 5`. -/
theorem calcular_nbins_fd_reached_witness :
    0 < iqr sample8b ∧ 0 < data_range sample8b ∧ 0 < h_fd sample8b ∧
      calcular_nbins sample8b = 5 := by
  have hl : 2 ≤ sample8b.length := by rw [sample8b_length]; norm_num
  have hiqr : 0 < iqr sample8b := by rw [iqr_sample8b]; norm_num
  have hdr : 0 < data_range sample8b := by rw [data_range_sample8b]; norm_num
  obtain ⟨hh, -, -, -, heq⟩ := calcular_nbins_fd_reached sample8b hl hiqr hdr
  refine ⟨hiqr, hdr, hh, ?_⟩
  rw [heq]
  unfold h_fd
  rw [data_range_sample8b, iqr_sample8b, sample8b_length]
  rw [show ((8 : ℕ) : ℝ) = 8 by norm_num, rpow_neg_third_eight]
  rw [show (8 : ℝ) / (2 * 2 * (1 / 2)) = 4 by norm_num, pyRound_four]
  decide

theorem sorted_replicate (n : ℕ) (c : ℝ) : List.Sorted (· ≤ ·) (List.replicate n c) := by
  induction n with
  | zero => simp
  | succ k ih =>
    rw [List.replicate_succ]
    exact List.sorted_cons.mpr ⟨fun b hb => le_of_eq (List.eq_of_mem_replicate hb).symm, ih⟩

theorem getD_replicate {n i : ℕ} (c d : ℝ) (h : i < n) :
    (List.replicate n c).getD i d = c := by
  rw [List.getD_eq_getElem _ _ (by simpa using h), List.getElem_replicate]

theorem q1_replicate50 (c : ℝ) : q1 (List.replicate 50 c) = c := by
  have hs : List.insertionSort (· ≤ ·) (List.replicate 50 c) = List.replicate 50 c :=
    (sorted_replicate 50 c).insertionSort_eq
  have hl : (List.replicate 50 c).length = 50 := by simp
  simp only [q1, percentile, hs, hl, posIdx_25_50]
  rw [getD_replicate c 0 (by norm_num), getD_replicate c c (by norm_num)]
  ring

theorem q3_replicate50 (c : ℝ) : q3 (List.replicate 50 c) = c := by
  have hs : List.insertionSort (· ≤ ·) (List.replicate 50 c) = List.replicate 50 c :=
    (sorted_replicate 50 c).insertionSort_eq
  have hl : (List.replicate 50 c).length = 50 := by simp
  simp only [q3, percentile, hs, hl, posIdx_75_50]
  rw [getD_replicate c 0 (by norm_num), getD_replicate c c (by norm_num)]
  ring

/-- C5: the constant sample of fifty copies of 100000 has zero interquartile
range, falls back to Sturges, and the estimator returns exactly 7. -/
theorem calcular_nbins_constant_sample :
    iqr (List.replicate 50 (100000 : ℝ)) = 0 ∧
      calcular_nbins (List.replicate 50 (100000 : ℝ)) =
        nbins_sturges (List.replicate 50 (100000 : ℝ)).length ∧
      calcular_nbins (List.replicate 50 (100000 : ℝ)) = 7 := by
  have hiqr : iqr (List.replicate 50 (100000 : ℝ)) = 0 := by
    unfold iqr
    rw [q1_replicate50, q3_replicate50]
    ring
  have hl : (List.replicate 50 (100000 : ℝ)).length = 50 := by simp
  have h := calcular_nbins_eq_sturges (by rw [hl]; norm_num) (Or.inl hiqr)
  exact ⟨hiqr, h, by rw [h, hl, nbins_sturges_50]⟩

/-- Concrete uniform sample `[0, 1, ..., 16]` of size 17. -/
noncomputable def sample17 : List ℝ := List.map (fun k : ℕ => (k : ℝ)) (List.range 17)

theorem sample17_length : sample17.length = 17 := by
  simp [sample17]

theorem sample17_sorted : List.Sorted (· ≤ ·) sample17 := by
  refine (List.pairwise_lt_range 17).map (fun k : ℕ => (k : ℝ)) ?_
  intro a b h
  show (a : ℝ) ≤ (b : ℝ)
  exact_mod_cast le_of_lt h

theorem sample17_getD (i : ℕ) (d : ℝ) (h : i < 17) : sample17.getD i d = (i : ℝ) := by
  rw [List.getD_eq_getElem _ _ (by rw [sample17_length]; exact h)]
  simp [sample17]

theorem q1_sample17 : q1 sample17 = 4 := by
  have hs : List.insertionSort (· ≤ ·) sample17 = sample17 := sample17_sorted.insertionSort_eq
  simp only [q1, percentile, hs, sample17_length, posIdx_25_17, posFrac_25_17]
  rw [sample17_getD 4 0 (by norm_num)]
  norm_num

theorem q3_sample17 : q3 sample17 = 12 := by
  have hs : List.insertionSort (· ≤ ·) sample17 = sample17 := sample17_sorted.insertionSort_eq
  simp only [q3, percentile, hs, sample17_length, posIdx_75_17, posFrac_75_17]
  rw [sample17_getD 12 0 (by norm_num)]
  norm_num

theorem iqr_sample17 : iqr sample17 = 8 := by
  unfold iqr
  rw [q1_sample17, q3_sample17]
  norm_num

theorem sample17_ne_nil : sample17 ≠ [] := by
  intro he
  have := congrArg List.length he
  rw [sample17_length] at this
  simp at this

theorem listMax_sample17 : listMax sample17 = 16 := by
  have h16 : (16 : ℝ) ∈ sample17 :=
    List.mem_map.mpr ⟨16, List.mem_range.mpr (by norm_num), by norm_num⟩
  have hub : ∀ a ∈ sample17, a ≤ 16 := by
    intro a ha
    obtain ⟨k, hk, rfl⟩ := List.mem_map.mp ha
    have hk16 : k ≤ 16 := by
      have := List.mem_range.mp hk
      omega
    exact_mod_cast hk16
  exact le_antisymm (hub _ (listMax_mem sample17_ne_nil)) (le_listMax h16)

theorem listMin_sample17 : listMin sample17 = 0 := by
  have h0 : (0 : ℝ) ∈ sample17 :=
    List.mem_map.mpr ⟨0, List.mem_range.mpr (by norm_num), by norm_num⟩
  have hlb : ∀ a ∈ sample17, 0 ≤ a := by
    intro a ha
    obtain ⟨k, hk, rfl⟩ := List.mem_map.mp ha
    exact Nat.cast_nonneg k
  exact le_antisymm (listMin_le h0) (hlb _ (listMin_mem sample17_ne_nil))

theorem data_range_sample17 : data_range sample17 = 16 := by
  unfold data_range
  rw [listMax_sample17, listMin_sample17]
  norm_num

theorem rpow_third_17_bounds :
    5 / 2 < (17 : ℝ) ^ ((1 : ℝ) / 3) ∧ (17 : ℝ) ^ ((1 : ℝ) / 3) < 13 / 5 := by
  have hx : (0 : ℝ) ≤ (17 : ℝ) ^ ((1 : ℝ) / 3) := Real.rpow_nonneg (by norm_num) _
  have h3 : ((17 : ℝ) ^ ((1 : ℝ) / 3)) ^ (3 : ℕ) = 17 := by
    rw [show (1 : ℝ) / 3 = (((3 : ℕ) : ℝ))⁻¹ by norm_num]
    exact Real.rpow_inv_natCast_pow (by norm_num) (by norm_num)
  constructor
  · refine lt_of_pow_lt_pow_left₀ 3 hx ?_
    rw [h3]
    norm_num
  · refine lt_of_pow_lt_pow_left₀ 3 (by norm_num) ?_
    rw [h3]
    norm_num

theorem pyRound_t17 : pyRound ((17 : ℝ) ^ ((1 : ℝ) / 3)) = 3 := by
  obtain ⟨hl, hh⟩ := rpow_third_17_bounds
  have hfl : ⌊(17 : ℝ) ^ ((1 : ℝ) / 3)⌋ = 2 := by
    rw [Int.floor_eq_iff]
    constructor
    · push_cast
      linarith
    · push_cast
      linarith
  have hne : (17 : ℝ) ^ ((1 : ℝ) / 3) - ((2 : ℤ) : ℝ) ≠ 1 / 2 := by
    push_cast
    intro h
    linarith
  unfold pyRound
  rw [hfl, if_neg hne, round_eq]
  rw [Int.floor_eq_iff]
  constructor
  · push_cast
    linarith
  · push_cast
    linarith

theorem ratio_sample17 :
    data_range sample17 / h_fd sample17 = (17 : ℝ) ^ ((1 : ℝ) / 3) := by
  have ht : (0 : ℝ) < (17 : ℝ) ^ ((1 : ℝ) / 3) := Real.rpow_pos_of_pos (by norm_num) _
  unfold h_fd
  rw [iqr_sample17, data_range_sample17, sample17_length]
  rw [show ((17 : ℕ) : ℝ) = 17 by norm_num]
  rw [show (-(1 / 3) : ℝ) = -((1 : ℝ) / 3) by norm_num]
  rw [Real.rpow_neg (by norm_num)]
  rw [div_eq_iff (by positivity)]
  field_simp
  norm_num

/-- C8 counterexample: on the uniform sample `[0, ..., 16]` of size 17 the
estimator returns 5, strictly below the clamped Sturges lower bound 6 for
that size, so a larger sample can fall below the Sturges bound. -/
theorem sturges_bound_counterexample :
    calcular_nbins sample17 = 5 ∧ nbins_sturges sample17.length = 6 ∧
      calcular_nbins sample17 < nbins_sturges sample17.length := by
  have hl : 2 ≤ sample17.length := by rw [sample17_length]; norm_num
  have hiqr : 0 < iqr sample17 := by rw [iqr_sample17]; norm_num
  have hdr : 0 < data_range sample17 := by rw [data_range_sample17]; norm_num
  have h5 : calcular_nbins sample17 = 5 := by
    rw [calcular_nbins_eq_fd hl hiqr hdr, ratio_sample17, pyRound_t17]
    decide
  have h6 : nbins_sturges sample17.length = 6 := by rw [sample17_length, nbins_sturges_17]
  exact ⟨h5, h6, by rw [h5, h6]; norm_num⟩

/-- C8 (amended): for samples of size at least 2 the returned bin count never
falls below the global clamp minimum 5; it can however fall below the clamped
Sturges lower bound for that size. -/
theorem calcular_nbins_ge_clamp_min (l : List ℝ) (_h : 2 ≤ l.length) :
    5 ≤ calcular_nbins l :=
  (calcular_nbins_bounds l).1

/-- C8 witness: the two-element sample `[0, 1]`. -/
theorem calcular_nbins_ge_clamp_min_witness :
    2 ≤ ([0, 1] : List ℝ).length ∧ 5 ≤ calcular_nbins [0, 1] :=
  ⟨by norm_num, calcular_nbins_ge_clamp_min [0, 1] (by norm_num)⟩

/-- C10: at its call site the estimator only runs when the cleaned series is
non-empty; on the empty series the hard-coded bin count 30 is used instead of
the estimator, whose value there would be the default 10. -/
theorem nbins_empty_hardcoded (s : List ℝ) (h : s.length = 0) :
    nbins s = 30 ∧ calcular_nbins s = 10 ∧ nbins s ≠ calcular_nbins s := by
  have h30 : nbins s = 30 := by
    unfold nbins
    rw [if_neg (by rw [h]; norm_num)]
  have h10 : calcular_nbins s = 10 := calcular_nbins_of_small (by rw [h]; norm_num)
  exact ⟨h30, h10, by rw [h30, h10]; norm_num⟩

/-- C10 witness: the empty series uses 30 bins while the estimator default is 10. -/
theorem nbins_empty_hardcoded_witness :
    nbins ([] : List ℝ) = 30 ∧ calcular_nbins ([] : List ℝ) = 10 :=
  ⟨(nbins_empty_hardcoded [] rfl).1, (nbins_empty_hardcoded [] rfl).2.1⟩

end App
